import Mathlib

/-!
Verification of rocPRIM's block-wide "reduce then scan" prefix-scan primitive,
a shallow embedding of
src/library/rocprim/include/block/detail/block_scan_reduce_then_scan.hpp
(class block_scan_reduce_then_scan) together with the thread intrinsics of
src/library/rocprim/include/intrinsics/thread.hpp.

Modelling choices.
The algorithm is SPMD: `bs` (BlockSize) threads run the same code on shared
storage `storage.threads`, separated by barriers.  Shared storage is modelled
as a total function `Nat → T`; the initial contents `store0` are arbitrary.
A phase in which each thread writes one distinct slot is modelled as a
pointwise override of the store (`stage`); the per-leader sequential loops are
modelled by structural recursion (`leader_value`), which is faithful because
between the two barriers each leader reads and writes only its own contiguous
slot range, disjoint from every other leader's range.  The hardware wavefront
size `::rocprim::warp_size()` is the parameter `hw`; `BlockSize` is `bs`.
Helpers that are referenced by the source but whose definitions are not under
src/ (detail/various.hpp, warp/warp_scan.hpp, the shuffle intrinsics) are
modelled from the spec and marked `Modelled from the spec:` in their doc
comments.
-/

namespace BlockScan

variable {T : Type}

/-- Number of scratch items each leader re-reduces: line 49,
`(BlockSize + ::rocprim::warp_size() - 1) / ::rocprim::warp_size()`. -/
def thread_reduction_size_ (bs hw : Nat) : Nat := (bs + hw - 1) / hw

/-- Modelled from the spec: `detail::get_min_warp_size` lives in
detail/various.hpp which is not under src/; the spec (section 3, SubGroup)
says the sub-group width is the minimum of `BlockSize` and the hardware's
native width. -/
def get_min_warp_size (bs hw : Nat) : Nat := min bs hw

/-- Logical warp size used for the leader scan: line 54. -/
def warp_size_ (bs hw : Nat) : Nat := get_min_warp_size bs hw

/-- Modelled from the spec: `detail::get_lds_banks_no` is not under src/;
the source comment at line 568 says the LDS has 32 banks. -/
def banks_no_ : Nat := 32

/-- Modelled from the spec: `detail::is_power_of_two` is not under src/. -/
def is_power_of_two (n : Nat) : Bool := n != 0 && (n &&& (n - 1)) == 0

/-- Line 60: padding is applied when the per-leader run length is a power of
two greater than one. -/
def has_bank_conflicts_ (bs hw : Nat) : Bool :=
  is_power_of_two (thread_reduction_size_ bs hw)
    && decide (1 < thread_reduction_size_ bs hw)

/-- Line 62: one pad slot per 32-bank row. -/
def bank_conflicts_padding (bs hw : Nat) : Nat :=
  if has_bank_conflicts_ bs hw then
    warp_size_ bs hw * thread_reduction_size_ bs hw / banks_no_
  else 0

/-- Declared length of `storage_type::threads` (line 69). -/
def storage_size (bs hw : Nat) : Nat :=
  warp_size_ bs hw * thread_reduction_size_ bs hw + bank_conflicts_padding bs hw

/-- Line 566: the bank-conflict index remapping. -/
def index (bs hw : Nat) (n : Nat) : Nat :=
  if has_bank_conflicts_ bs hw then n + n / banks_no_ else n

/-- Admissible configuration: positive sizes, `BlockSize` exactly covered by
the leader ranges (the spec's section 9 open question requires exact
divisibility), and, when padding is on, the per-leader run fitting inside a
bank row (always true on real hardware, where `trs ≤ 16` and there are 32
banks). -/
def valid_config (bs hw : Nat) : Prop :=
  0 < bs ∧ 0 < hw ∧
  bs = warp_size_ bs hw * thread_reduction_size_ bs hw ∧
  (has_bank_conflicts_ bs hw = true → thread_reduction_size_ bs hw ∣ banks_no_)

/-! ### Specification-side folds (the spec's `fold(scan_op, v_0..v_k)`) -/

/-- The left-to-right fold of `vs 0, …, vs k` — the spec's
`fold(scan_op, v_0..v_k)`. -/
def scan_fold (op : T → T → T) (vs : Nat → T) (k : Nat) : T :=
  (List.range k).foldl (fun a m => op a (vs (m + 1))) (vs 0)

/-- The left-to-right fold of `init, vs 0, …, vs (k-1)` — the spec's
`fold(scan_op, init, v_0..v_{k-1})`; for `k = 0` it is `init`. -/
def scan_fold_from (op : T → T → T) (init : T) (vs : Nat → T) (k : Nat) : T :=
  (List.range k).foldl (fun a m => op a (vs m)) init

/-- Fold of the segment `vs (s+1), …, vs (s+n)` onto an accumulator. -/
def seg_fold (op : T → T → T) (vs : Nat → T) (s n : Nat) (x : T) : T :=
  (List.range n).foldl (fun a j => op a (vs (s + 1 + j))) x

/-- The fold of block `l` of size `c` of the flat sequence `vs`. -/
def block_fold (op : T → T → T) (vs : Nat → T) (c l : Nat) : T :=
  seg_fold op vs (l * c) (c - 1) (vs (l * c))

/-- Flat view of per-thread arrays: logical position `k` holds item
`k % ipt` of thread `k / ipt`. -/
def flat_items (ipt : Nat) (inputs : Nat → Nat → T) : Nat → T :=
  fun k => inputs (k / ipt) (k % ipt)

/-! ### Embedding of the algorithm -/

/-- The staging thread (if any) that wrote scratch slot `p`. -/
def index_find (idxf : Nat → Nat) (bs p : Nat) : Option Nat :=
  (List.range bs).find? (fun t => idxf t == p)

/-- Staging step, line 458: every thread `t < bs` writes its value at slot
`idxf t`; all writes are to distinct slots, so the SPMD phase is a pointwise
override of the store. -/
def stage (idxf : Nat → Nat) (bs : Nat) (inputs store0 : Nat → T) : Nat → T :=
  fun p =>
    match index_find idxf bs p with
    | some t => inputs t
    | none => store0 p

/-- Leader re-reduction loop, lines 465–472: sequentially combine the `n`
scratch slots `st is, st (is+1), …, st (is+n-1)`. -/
def thread_reduction (op : T → T → T) (st : Nat → T) (is n : Nat) : T :=
  (List.range (n - 1)).foldl (fun a j => op a (st (is + 1 + j))) (st is)

/-- Modelled from the spec: `warp_scan_shuffle::inclusive_scan`
(warp/warp_scan.hpp, not under src/).  Spec section 4.2: result at lane `i`
is `fold(scan_op, v_0..v_i)` in original lane order. -/
def warp_inclusive_scan (op : T → T → T) (vals : Nat → T) (i : Nat) : T :=
  (List.range i).foldl (fun a m => op a (vals (m + 1))) (vals 0)

/-- Modelled from the spec: `warp_shuffle_up(v, 1, warp_size_)` (intrinsics,
not under src/) — the spec's shift-by-one-lane primitive.  Lane `i > 0`
receives lane `i-1`'s value; lane 0 keeps its own value (the algorithm
discards lane 0's shuffled value at line 480). -/
def warp_shuffle_up (vals : Nat → T) (i : Nat) : T := vals (i - 1)

/-- Value held by leader `l` after the warp scan, shuffle and the
prefix-inclusion of lines 474–481: leader 0 keeps its own input, leader
`l > 0` combines the previous lane's scanned value with its first staged
slot. -/
def leader_carry (op : T → T → T) (trs : Nat) (idxf : Nat → Nat)
    (inputs st : Nat → T) (l : Nat) : T :=
  if l = 0 then inputs 0
  else
    op
      (warp_shuffle_up
        (warp_inclusive_scan op
          (fun m => thread_reduction op st (idxf (m * trs)) trs)) l)
      (st (idxf (l * trs)))

/-- Propagation walk of leader `l`, lines 483–491: the value written at raw
offset `j` of the leader's range (slot `idxf (l*trs) + j`).  Offset 0 holds
the carry; offset `j+1` combines the previous offset's value with the staged
slot there (the walk reads a slot before overwriting it). -/
def leader_value (op : T → T → T) (trs : Nat) (idxf : Nat → Nat)
    (inputs st : Nat → T) (l : Nat) : Nat → T
  | 0 => leader_carry op trs idxf inputs st l
  | j + 1 => op (leader_value op trs idxf inputs st l j) (st (idxf (l * trs) + (j + 1)))

/-- The leader (if any) whose contiguous slot range `[idxf (l*trs),
idxf (l*trs) + trs)` contains slot `p`. -/
def range_find (ws trs : Nat) (idxf : Nat → Nat) (p : Nat) : Option Nat :=
  (List.range ws).find?
    (fun l => decide (idxf (l * trs) ≤ p) && decide (p < idxf (l * trs) + trs))

/-- `inclusive_scan_base` (lines 452–494): the contents of
`storage.threads` after the staging barrier, the leader re-reduction, the
warp scan and the propagation barrier.  A slot inside some leader's range
holds that leader's walk value; every other slot still holds its staged
value. -/
def inclusive_scan_base (op : T → T → T) (bs ws trs : Nat) (idxf : Nat → Nat)
    (inputs store0 : Nat → T) : Nat → T :=
  let st := stage idxf bs inputs store0
  fun p =>
    match range_find ws trs idxf p with
    | some l => leader_value op trs idxf inputs st l (p - idxf (l * trs))
    | none => st p

/-- The storage produced by `inclusive_scan_base` in the configuration the
public member functions use (`idxf` is `index`, `ws` is `warp_size_`, `trs`
is `thread_reduction_size_`). -/
def block_store (op : T → T → T) (bs hw : Nat) (vin store0 : Nat → T) : Nat → T :=
  inclusive_scan_base op bs (warp_size_ bs hw) (thread_reduction_size_ bs hw)
    (index bs hw) vin store0

/-! ### Public scalar variants -/

/-- `inclusive_scan` for one value per thread (lines 72–80 via
`inclusive_scan_impl`, line 447): thread `t`'s output is
`storage.threads[index(t)]`. -/
def inclusive_scan (op : T → T → T) (bs hw : Nat) (inputs store0 : Nat → T) :
    Nat → T :=
  fun t => block_store op bs hw inputs store0 (index bs hw t)

/-- The reduction the with-reduction variants read (lines 99, 182, 276,
370): `storage.threads[index(BlockSize - 1)]`. -/
def scan_reduction (op : T → T → T) (bs hw : Nat) (vin store0 : Nat → T) : T :=
  block_store op bs hw vin store0 (index bs hw (bs - 1))

/-- `inclusive_scan` with a reduction output (lines 91–100): it calls the
plain variant and then reads the last logical slot. -/
def inclusive_scan_red (op : T → T → T) (bs hw : Nat) (inputs store0 : Nat → T) :
    (Nat → T) × T :=
  (inclusive_scan op bs hw inputs store0, scan_reduction op bs hw inputs store0)

/-- `exclusive_scan` with an initial value (lines 242–251 via
`exclusive_scan_impl`, lines 496–508): thread 0 outputs `init`; thread
`t > 0` outputs `scan_op(init, storage.threads[index(t-1)])`. -/
def exclusive_scan (op : T → T → T) (bs hw : Nat) (init : T)
    (inputs store0 : Nat → T) : Nat → T :=
  fun t =>
    if t = 0 then init
    else op init (block_store op bs hw inputs store0 (index bs hw (t - 1)))

/-- `exclusive_scan` with init and a reduction output (lines 263–277). -/
def exclusive_scan_red (op : T → T → T) (bs hw : Nat) (init : T)
    (inputs store0 : Nat → T) : (Nat → T) × T :=
  (exclusive_scan op bs hw init inputs store0, scan_reduction op bs hw inputs store0)

/-! ### Per-thread array helpers -/

/-- Local reduction of a thread's `ipt` items, lines 137–143:
`input[0] op input[1] op … op input[ipt-1]`, left to right. -/
def thread_items_fold (op : T → T → T) (ipt : Nat) (items : Nat → T) : T :=
  (List.range (ipt - 1)).foldl (fun a i => op a (items (i + 1))) (items 0)

/-- Final thread-local inclusive scan, lines 156–161: `output[0]` is the
seed, `output[i] = scan_op(output[i-1], input[i])`. -/
def thread_scan_from (op : T → T → T) (x0 : T) (items : Nat → T) : Nat → T
  | 0 => x0
  | i + 1 => op (thread_scan_from op x0 items i) (items (i + 1))

/-- Final thread-local exclusive scan, lines 338–347: `output[0]` is the
seed, `output[i] = scan_op(output[i-1], input[i-1])`. -/
def exclusive_thread_scan_from (op : T → T → T) (e0 : T) (items : Nat → T) :
    Nat → T
  | 0 => e0
  | i + 1 => op (exclusive_thread_scan_from op e0 items i) (items i)

/-! ### Public array variants -/

/-- Array-input `inclusive_scan` (lines 131–162): reduce the thread's items,
run the block-wide exclusive scan (no init) over the reduced values, seed
`output[0]` with `input[0]` on thread 0 and with
`scan_op(thread_prefix, input[0])` elsewhere, then scan the items locally. -/
def inclusive_scan_array (op : T → T → T) (bs hw ipt : Nat)
    (inputs : Nat → Nat → T) (store0 : Nat → T) : Nat → Nat → T :=
  fun t =>
    thread_scan_from op
      (if t = 0 then inputs t 0
       else op (block_store op bs hw (fun m => thread_items_fold op ipt (inputs m))
                  store0 (index bs hw (t - 1)))
              (inputs t 0))
      (inputs t)

/-- Array-input `inclusive_scan` with a reduction output (lines 173–183). -/
def inclusive_scan_array_red (op : T → T → T) (bs hw ipt : Nat)
    (inputs : Nat → Nat → T) (store0 : Nat → T) : (Nat → Nat → T) × T :=
  (inclusive_scan_array op bs hw ipt inputs store0,
   scan_reduction op bs hw (fun m => thread_items_fold op ipt (inputs m)) store0)

/-- Array-input `exclusive_scan` with an initial value (lines 312–348). -/
def exclusive_scan_array (op : T → T → T) (bs hw ipt : Nat) (init : T)
    (inputs : Nat → Nat → T) (store0 : Nat → T) : Nat → Nat → T :=
  fun t =>
    exclusive_thread_scan_from op
      (if t = 0 then init
       else op init (block_store op bs hw (fun m => thread_items_fold op ipt (inputs m))
                       store0 (index bs hw (t - 1))))
      (inputs t)

/-- Array-input `exclusive_scan` with init and a reduction output
(lines 360–371). -/
def exclusive_scan_array_red (op : T → T → T) (bs hw ipt : Nat) (init : T)
    (inputs : Nat → Nat → T) (store0 : Nat → T) : (Nat → Nat → T) × T :=
  (exclusive_scan_array op bs hw ipt init inputs store0,
   scan_reduction op bs hw (fun m => thread_items_fold op ipt (inputs m)) store0)

/-! ### Callback variants

`get_block_prefix` (lines 544–563) has every thread of hardware warp 0 invoke
the callback on the block reduction; thread 0 stores its result in
`storage.threads[0]` and after a barrier every thread reads that slot, so the
prefix every thread uses is the callback applied to the block reduction. -/

/-- Scalar `inclusive_scan` with a prefix callback (lines 112–129). -/
def inclusive_scan_cb (op : T → T → T) (bs hw : Nat) (cb : T → T)
    (inputs store0 : Nat → T) : Nat → T :=
  fun t =>
    op (cb (block_store op bs hw inputs store0 (index bs hw (bs - 1))))
      (block_store op bs hw inputs store0 (index bs hw t))

/-- Scalar `exclusive_scan` with a prefix callback and no init
(lines 290–310): thread 0 outputs the block prefix itself. -/
def exclusive_scan_cb (op : T → T → T) (bs hw : Nat) (cb : T → T)
    (inputs store0 : Nat → T) : Nat → T :=
  fun t =>
    if t = 0 then cb (block_store op bs hw inputs store0 (index bs hw (bs - 1)))
    else op (cb (block_store op bs hw inputs store0 (index bs hw (bs - 1))))
           (block_store op bs hw inputs store0 (index bs hw (t - 1)))

/-- Array-input `inclusive_scan` with a prefix callback (lines 195–240). -/
def inclusive_scan_array_cb (op : T → T → T) (bs hw ipt : Nat) (cb : T → T)
    (inputs : Nat → Nat → T) (store0 : Nat → T) : Nat → Nat → T :=
  fun t =>
    thread_scan_from op
      (op (cb (block_store op bs hw (fun m => thread_items_fold op ipt (inputs m))
                 store0 (index bs hw (bs - 1))))
        (if t = 0 then inputs t 0
         else op (block_store op bs hw (fun m => thread_items_fold op ipt (inputs m))
                    store0 (index bs hw (t - 1)))
                (inputs t 0)))
      (inputs t)

/-- Array-input `exclusive_scan` with a prefix callback and no init
(lines 384–430). -/
def exclusive_scan_array_cb (op : T → T → T) (bs hw ipt : Nat) (cb : T → T)
    (inputs : Nat → Nat → T) (store0 : Nat → T) : Nat → Nat → T :=
  fun t =>
    exclusive_thread_scan_from op
      (if t = 0 then
        cb (block_store op bs hw (fun m => thread_items_fold op ipt (inputs m))
              store0 (index bs hw (bs - 1)))
       else
        op (cb (block_store op bs hw (fun m => thread_items_fold op ipt (inputs m))
                  store0 (index bs hw (bs - 1))))
          (block_store op bs hw (fun m => thread_items_fold op ipt (inputs m))
             store0 (index bs hw (t - 1))))
      (inputs t)

/-- The callback invocations performed by a callback-taking collective call:
`get_block_prefix` (line 551) guards the invocation with `warp_id == 0`,
where `warp_id` is `flat_thread_id / ::rocprim::warp_size()`
(intrinsics/thread.hpp lines 61–64), so every thread whose flat id is below
the hardware warp size invokes the callback, each passing the block
reduction `storage.threads[index(BlockSize - 1)]`. -/
def inclusive_scan_cb_calls (op : T → T → T) (bs hw : Nat)
    (inputs store0 : Nat → T) : List (Nat × T) :=
  ((List.range bs).filter (fun t => t / hw == 0)).map
    (fun t => (t, block_store op bs hw inputs store0 (index bs hw (bs - 1))))

/-! ### Access-index bookkeeping (for the safety claims) -/

/-- Scratch slots written during staging: `index(t)` for every flat id
`t < BlockSize` (line 458). -/
def staged_indices (bs hw : Nat) : List Nat :=
  (List.range bs).map (index bs hw)

/-- Scratch slots read (and later rewritten) by the leader loops: raw
indices `idx_start, …, idx_start + thread_reduction_size_ - 1` for each
leader (lines 462–472 and 483–491). -/
def leader_read_indices (bs hw : Nat) : List Nat :=
  (List.range (warp_size_ bs hw)).flatMap
    (fun l =>
      (List.range (thread_reduction_size_ bs hw)).map
        (fun j => index bs hw (l * thread_reduction_size_ bs hw) + j))

/-- Every scratch index touched by `inclusive_scan_base` and
`get_block_prefix`: the staged slots, the leader ranges, the block-reduction
read `index(BlockSize - 1)` and the broadcast slot 0. -/
def accessed_indices (bs hw : Nat) : List Nat :=
  staged_indices bs hw ++ leader_read_indices bs hw ++ [index bs hw (bs - 1), 0]

/-- The algorithm run with an explicit index mapping (for comparing the
bank-conflict remapping against the identity mapping). -/
def inclusive_scan_with_map (op : T → T → T) (bs hw : Nat) (idxf : Nat → Nat)
    (inputs store0 : Nat → T) : Nat → T :=
  fun t =>
    inclusive_scan_base op bs (warp_size_ bs hw) (thread_reduction_size_ bs hw)
      idxf inputs store0 (idxf t)

/-- The reduction slot read under an explicit index mapping. -/
def scan_reduction_with_map (op : T → T → T) (bs hw : Nat) (idxf : Nat → Nat)
    (vin store0 : Nat → T) : T :=
  inclusive_scan_base op bs (warp_size_ bs hw) (thread_reduction_size_ bs hw)
    idxf vin store0 (idxf (bs - 1))

/-! ### Generic fold lemmas -/

lemma foldl_op_map_assoc {α : Type} (op : T → T → T)
    (hassoc : ∀ a b c : T, op (op a b) c = op a (op b c)) (w : α → T) :
    ∀ (l : List α) (a x : T),
      l.foldl (fun b j => op b (w j)) (op a x)
        = op a (l.foldl (fun b j => op b (w j)) x)
  | [], _, _ => rfl
  | j :: l, a, x => by
    simp only [List.foldl_cons]
    rw [hassoc]
    exact foldl_op_map_assoc op hassoc w l a (op x (w j))

lemma foldl_congr_mem {α : Type} (f g : T → α → T) :
    ∀ (l : List α) (x : T), (∀ b a, a ∈ l → f b a = g b a) →
      l.foldl f x = l.foldl g x
  | [], _, _ => rfl
  | a :: l, x, h => by
    simp only [List.foldl_cons]
    rw [h x a (List.mem_cons_self a l)]
    exact foldl_congr_mem f g l (g x a) (fun b a2 ha2 => h b a2 (List.mem_cons_of_mem a ha2))

lemma scan_fold_succ (op : T → T → T) (vs : Nat → T) (k : Nat) :
    scan_fold op vs (k + 1) = op (scan_fold op vs k) (vs (k + 1)) := by
  unfold scan_fold
  rw [List.range_succ, List.foldl_append]
  rfl

lemma seg_fold_succ (op : T → T → T) (vs : Nat → T) (s n : Nat) (x : T) :
    seg_fold op vs s (n + 1) x = op (seg_fold op vs s n x) (vs (s + 1 + n)) := by
  unfold seg_fold
  rw [List.range_succ, List.foldl_append]
  rfl

lemma scan_fold_eq_seg (op : T → T → T) (vs : Nat → T) (s : Nat) :
    ∀ n, scan_fold op vs (s + n) = seg_fold op vs s n (scan_fold op vs s)
  | 0 => rfl
  | n + 1 => by
    have h1 : s + (n + 1) = (s + n) + 1 := rfl
    have h2 : s + n + 1 = s + 1 + n := by omega
    rw [h1, scan_fold_succ, scan_fold_eq_seg op vs s n, seg_fold_succ, h2]

lemma scan_fold_congr (op : T → T → T) {vs us : Nat → T} :
    ∀ {k : Nat}, (∀ m, m ≤ k → vs m = us m) → scan_fold op vs k = scan_fold op us k
  | 0, h => h 0 (Nat.le_refl 0)
  | k + 1, h => by
    rw [scan_fold_succ, scan_fold_succ,
      scan_fold_congr op (fun m hm => h m (Nat.le_trans hm (Nat.le_succ k))),
      h (k + 1) (Nat.le_refl _)]

lemma seg_fold_congr (op : T → T → T) {vs us : Nat → T} (s n : Nat) (x : T)
    (h : ∀ j, j < n → vs (s + 1 + j) = us (s + 1 + j)) :
    seg_fold op vs s n x = seg_fold op us s n x := by
  unfold seg_fold
  exact foldl_congr_mem _ _ (List.range n) x
    (fun b j hj => by rw [h j (List.mem_range.mp hj)])

lemma seg_fold_pull (op : T → T → T)
    (hassoc : ∀ a b c : T, op (op a b) c = op a (op b c))
    (vs : Nat → T) (s n : Nat) (a x : T) :
    seg_fold op vs s n (op a x) = op a (seg_fold op vs s n x) :=
  foldl_op_map_assoc op hassoc (fun j => vs (s + 1 + j)) (List.range n) a x

lemma scan_fold_from_succ (op : T → T → T) (init : T) (vs : Nat → T) (k : Nat) :
    scan_fold_from op init vs (k + 1) = op (scan_fold_from op init vs k) (vs k) := by
  unfold scan_fold_from
  rw [List.range_succ, List.foldl_append]
  rfl

lemma scan_fold_from_eq (op : T → T → T)
    (hassoc : ∀ a b c : T, op (op a b) c = op a (op b c)) (init : T) (vs : Nat → T) :
    ∀ k, scan_fold_from op init vs (k + 1) = op init (scan_fold op vs k)
  | 0 => by rw [scan_fold_from_succ]; rfl
  | k + 1 => by
    rw [scan_fold_from_succ, scan_fold_from_eq op hassoc init vs k, hassoc,
      ← scan_fold_succ op vs k]

lemma blocks_merge (op : T → T → T)
    (hassoc : ∀ a b c : T, op (op a b) c = op a (op b c))
    (vs : Nat → T) (c : Nat) (hc : 0 < c) :
    ∀ l, scan_fold op (block_fold op vs c) l = scan_fold op vs (l * c + (c - 1))
  | 0 => by
    show block_fold op vs c 0 = _
    unfold block_fold
    rw [Nat.zero_mul, scan_fold_eq_seg op vs 0 (c - 1)]
    rfl
  | l + 1 => by
    rw [scan_fold_succ, blocks_merge op hassoc vs c hc l]
    unfold block_fold
    have h1 : (l + 1) * c = l * c + (c - 1) + 1 := by rw [Nat.succ_mul]; omega
    rw [h1, scan_fold_eq_seg op vs (l * c + (c - 1) + 1) (c - 1), scan_fold_succ,
      seg_fold_pull op hassoc]

lemma warp_inclusive_scan_eq_scan_fold (op : T → T → T) (vals : Nat → T) (i : Nat) :
    warp_inclusive_scan op vals i = scan_fold op vals i := rfl

/-! ### Staging and leader-range lemmas -/

lemma stage_at (idxf : Nat → Nat) (bs : Nat) (inputs store0 : Nat → T)
    (hinj : ∀ t1 t2 : Nat, idxf t1 = idxf t2 → t1 = t2) (t : Nat) (ht : t < bs) :
    stage idxf bs inputs store0 (idxf t) = inputs t := by
  unfold stage index_find
  cases h : (List.range bs).find? (fun u => idxf u == idxf t) with
  | none =>
    exfalso
    have h2 := List.find?_eq_none.mp h t (List.mem_range.mpr ht)
    simp at h2
  | some u =>
    have h1 := List.find?_some h
    have h2 : u = t := hinj u t (by simpa using h1)
    simp [h2]

lemma find?_range_eq_some {q : Nat → Bool} :
    ∀ {ws a : Nat}, a < ws → q a = true → (∀ m, m < a → q m = false) →
      (List.range ws).find? q = some a := by
  intro ws
  induction ws with
  | zero => intro a ha _ _; omega
  | succ ws ih =>
    intro a ha hq hmin
    rw [List.range_succ, List.find?_append]
    rcases Nat.lt_succ_iff_lt_or_eq.mp ha with h | h
    · rw [ih h hq hmin]
      rfl
    · subst h
      have hnone : (List.range a).find? q = none :=
        List.find?_eq_none.mpr
          (fun m hm => by rw [hmin m (List.mem_range.mp hm)]; simp)
      rw [hnone]
      simp [hq]

lemma range_find_eq (ws trs : Nat) (idxf : Nat → Nat)
    (halign : ∀ l j : Nat, j < trs → idxf (l * trs + j) = idxf (l * trs) + j)
    (hinj : ∀ t1 t2 : Nat, idxf t1 = idxf t2 → t1 = t2)
    (l0 j0 : Nat) (hl : l0 < ws) (hj : j0 < trs) :
    range_find ws trs idxf (idxf (l0 * trs + j0)) = some l0 := by
  unfold range_find
  apply find?_range_eq_some hl
  · rw [halign l0 j0 hj]
    simp only [Bool.and_eq_true, decide_eq_true_eq]
    omega
  · intro m hm
    rw [Bool.eq_false_iff]
    intro hq
    simp only [Bool.and_eq_true, decide_eq_true_eq] at hq
    obtain ⟨ha, hb⟩ := hq
    set p := idxf (l0 * trs + j0) with hp
    have hj2 : p - idxf (m * trs) < trs := by omega
    have hp2 : p = idxf (m * trs) + (p - idxf (m * trs)) := by omega
    have hp3 : p = idxf (m * trs + (p - idxf (m * trs))) := by
      rw [halign m _ hj2]
      omega
    have heq : m * trs + (p - idxf (m * trs)) = l0 * trs + j0 :=
      hinj _ _ hp3.symm
    have hlt : m * trs + (p - idxf (m * trs)) < (m + 1) * trs := by
      rw [Nat.succ_mul]
      omega
    have hle : (m + 1) * trs ≤ l0 * trs := Nat.mul_le_mul_right trs hm
    omega

/-- Reading the final storage of `inclusive_scan_base` inside leader `l0`'s
range gives that leader's walk value. -/
lemma inclusive_scan_base_at (op : T → T → T) (ws trs : Nat) (idxf : Nat → Nat)
    (inputs store0 : Nat → T)
    (halign : ∀ l j : Nat, j < trs → idxf (l * trs + j) = idxf (l * trs) + j)
    (hinj : ∀ t1 t2 : Nat, idxf t1 = idxf t2 → t1 = t2)
    (l0 j0 : Nat) (hl : l0 < ws) (hj : j0 < trs) :
    inclusive_scan_base op (ws * trs) ws trs idxf inputs store0 (idxf (l0 * trs + j0))
      = leader_value op trs idxf inputs
          (stage idxf (ws * trs) inputs store0) l0 j0 := by
  unfold inclusive_scan_base
  rw [range_find_eq ws trs idxf halign hinj l0 j0 hl hj]
  rw [halign l0 j0 hj]
  simp [Nat.add_sub_cancel_left]

lemma block_pos_lt (ws trs m j : Nat) (hm : m < ws) (hj : j < trs) :
    m * trs + j < ws * trs := by
  have h1 : m * trs + j < (m + 1) * trs := by rw [Nat.succ_mul]; omega
  have h2 : (m + 1) * trs ≤ ws * trs := Nat.mul_le_mul_right trs (Nat.succ_le_of_lt hm)
  omega

/-- Leader `m`'s re-reduction over its staged range equals the fold of its
block of inputs. -/
lemma thread_reduction_eq_block_fold (op : T → T → T) (ws trs : Nat)
    (idxf : Nat → Nat) (inputs store0 : Nat → T)
    (halign : ∀ l j : Nat, j < trs → idxf (l * trs + j) = idxf (l * trs) + j)
    (hinj : ∀ t1 t2 : Nat, idxf t1 = idxf t2 → t1 = t2)
    (htrs : 0 < trs) (m : Nat) (hm : m < ws) :
    thread_reduction op (stage idxf (ws * trs) inputs store0) (idxf (m * trs)) trs
      = block_fold op inputs trs m := by
  unfold thread_reduction block_fold seg_fold
  have hm0 : m * trs < ws * trs := by
    have h := block_pos_lt ws trs m 0 hm htrs
    omega
  rw [stage_at idxf _ inputs store0 hinj (m * trs) hm0]
  apply foldl_congr_mem
  intro b j hj
  have hj2 : 1 + j < trs := by
    have := List.mem_range.mp hj
    omega
  have e1 : idxf (m * trs) + 1 + j = idxf (m * trs + (1 + j)) := by
    rw [halign m (1 + j) hj2]
    omega
  rw [e1, stage_at idxf _ inputs store0 hinj _ (block_pos_lt ws trs m (1 + j) hm hj2)]
  have e2 : m * trs + (1 + j) = m * trs + 1 + j := by omega
  rw [e2]

/-- After the warp scan, the shuffle and the prefix inclusion, leader `l`
carries the fold of the whole flat input up to the first position of its own
range. -/
lemma leader_carry_spec (op : T → T → T)
    (hassoc : ∀ a b c : T, op (op a b) c = op a (op b c))
    (ws trs : Nat) (idxf : Nat → Nat) (inputs store0 : Nat → T)
    (htrs : 0 < trs)
    (halign : ∀ l j : Nat, j < trs → idxf (l * trs + j) = idxf (l * trs) + j)
    (hinj : ∀ t1 t2 : Nat, idxf t1 = idxf t2 → t1 = t2)
    (l : Nat) (hl : l < ws) :
    leader_carry op trs idxf inputs (stage idxf (ws * trs) inputs store0) l
      = scan_fold op inputs (l * trs) := by
  unfold leader_carry
  cases l with
  | zero =>
    rw [if_pos rfl, Nat.zero_mul]
    rfl
  | succ l' =>
    rw [if_neg (Nat.succ_ne_zero l')]
    unfold warp_shuffle_up
    rw [Nat.succ_sub_one, warp_inclusive_scan_eq_scan_fold]
    have hred : scan_fold op
          (fun m => thread_reduction op (stage idxf (ws * trs) inputs store0)
            (idxf (m * trs)) trs) l'
        = scan_fold op (block_fold op inputs trs) l' :=
      scan_fold_congr op (fun m hm =>
        thread_reduction_eq_block_fold op ws trs idxf inputs store0 halign hinj htrs m
          (lt_of_le_of_lt hm (Nat.lt_of_succ_lt hl)))
    rw [hred, blocks_merge op hassoc inputs trs htrs l']
    have hm1 : (l' + 1) * trs < ws * trs := by
      have h := block_pos_lt ws trs (l' + 1) 0 hl htrs
      omega
    rw [stage_at idxf _ inputs store0 hinj ((l' + 1) * trs) hm1]
    have harith : (l' + 1) * trs = l' * trs + (trs - 1) + 1 := by
      rw [Nat.succ_mul]
      omega
    rw [harith, scan_fold_succ]

/-- The propagation walk of leader `l` writes the fold of the whole flat
input at every position of its range. -/
lemma leader_value_spec (op : T → T → T)
    (hassoc : ∀ a b c : T, op (op a b) c = op a (op b c))
    (ws trs : Nat) (idxf : Nat → Nat) (inputs store0 : Nat → T)
    (htrs : 0 < trs)
    (halign : ∀ l j : Nat, j < trs → idxf (l * trs + j) = idxf (l * trs) + j)
    (hinj : ∀ t1 t2 : Nat, idxf t1 = idxf t2 → t1 = t2)
    (l : Nat) (hl : l < ws) :
    ∀ j, j < trs →
      leader_value op trs idxf inputs (stage idxf (ws * trs) inputs store0) l j
        = scan_fold op inputs (l * trs + j)
  | 0, _ => by
    show leader_carry op trs idxf inputs (stage idxf (ws * trs) inputs store0) l = _
    rw [leader_carry_spec op hassoc ws trs idxf inputs store0 htrs halign hinj l hl,
      Nat.add_zero]
  | j + 1, hj => by
    show op (leader_value op trs idxf inputs (stage idxf (ws * trs) inputs store0) l j)
        (stage idxf (ws * trs) inputs store0 (idxf (l * trs) + (j + 1))) = _
    rw [leader_value_spec op hassoc ws trs idxf inputs store0 htrs halign hinj l hl j
      (Nat.lt_of_succ_lt hj)]
    have e1 : idxf (l * trs) + (j + 1) = idxf (l * trs + (j + 1)) :=
      (halign l (j + 1) hj).symm
    rw [e1, stage_at idxf _ inputs store0 hinj _ (block_pos_lt ws trs l (j + 1) hl hj)]
    have e2 : l * trs + (j + 1) = (l * trs + j) + 1 := by omega
    rw [e2, scan_fold_succ]

/-- Main lemma: in a configuration whose leader ranges exactly cover the
block (`bs = ws * trs`), with an index map that keeps each leader range
contiguous and injective, `inclusive_scan_base` leaves at slot `idxf t` the
left-to-right fold of inputs `0..t`, for every associative operator. -/
lemma inclusive_scan_base_spec (op : T → T → T)
    (hassoc : ∀ a b c : T, op (op a b) c = op a (op b c))
    (ws trs : Nat) (idxf : Nat → Nat) (inputs store0 : Nat → T)
    (htrs : 0 < trs)
    (halign : ∀ l j : Nat, j < trs → idxf (l * trs + j) = idxf (l * trs) + j)
    (hinj : ∀ t1 t2 : Nat, idxf t1 = idxf t2 → t1 = t2)
    (t : Nat) (ht : t < ws * trs) :
    inclusive_scan_base op (ws * trs) ws trs idxf inputs store0 (idxf t)
      = scan_fold op inputs t := by
  have hl : t / trs < ws := (Nat.div_lt_iff_lt_mul htrs).mpr ht
  have hj : t % trs < trs := Nat.mod_lt t htrs
  have ht2 : t = t / trs * trs + t % trs := by
    rw [Nat.mul_comm]
    exact (Nat.div_add_mod t trs).symm
  rw [ht2, inclusive_scan_base_at op ws trs idxf inputs store0 halign hinj _ _ hl hj,
    leader_value_spec op hassoc ws trs idxf inputs store0 htrs halign hinj (t / trs) hl
      (t % trs) hj]

/-! ### Properties of the bank-conflict index mapping and the configuration -/

lemma padded_align (trs banks : Nat) (hb : 0 < banks) (hdvd : trs ∣ banks)
    (l j : Nat) (hj : j < trs) :
    (l * trs + j) + (l * trs + j) / banks = (l * trs + (l * trs) / banks) + j := by
  obtain ⟨c, hc⟩ := hdvd
  have hc0 : 0 < c := by
    rcases Nat.eq_zero_or_pos c with h | h
    · subst h; omega
    · exact h
  have hmod : l * trs % banks = trs * (l % c) := by
    rw [hc, Nat.mul_comm l trs, Nat.mul_mod_mul_left]
  have h1 : l % c < c := Nat.mod_lt l hc0
  have h2 : trs * (l % c) + trs ≤ trs * c := by
    have h3 := Nat.mul_le_mul_left trs (Nat.succ_le_of_lt h1)
    rw [Nat.mul_succ] at h3
    omega
  have hmlt : l * trs % banks + j < banks := by omega
  have hdiv := Nat.div_add_mod (l * trs) banks
  have key : (l * trs + j) / banks = (l * trs) / banks := by
    have h3 : l * trs + j = banks * ((l * trs) / banks) + (l * trs % banks + j) := by
      omega
    rw [h3, Nat.mul_add_div hb]
    have h4 : (l * trs % banks + j) / banks = 0 := Nat.div_eq_of_lt hmlt
    omega
  omega

lemma index_align (bs hw : Nat)
    (hconf : has_bank_conflicts_ bs hw = true → thread_reduction_size_ bs hw ∣ banks_no_)
    (l j : Nat) (hj : j < thread_reduction_size_ bs hw) :
    index bs hw (l * thread_reduction_size_ bs hw + j)
      = index bs hw (l * thread_reduction_size_ bs hw) + j := by
  unfold index
  cases h : has_bank_conflicts_ bs hw with
  | false => simp
  | true =>
    simp only [if_true]
    exact padded_align (thread_reduction_size_ bs hw) banks_no_ (by decide)
      (hconf h) l j hj

lemma index_strictMono (bs hw : Nat) :
    ∀ a b : Nat, a < b → index bs hw a < index bs hw b := by
  intro a b hab
  unfold index banks_no_
  cases h : has_bank_conflicts_ bs hw with
  | false => simpa using hab
  | true =>
    simp only [if_true]
    omega

lemma index_inj (bs hw : Nat) :
    ∀ t1 t2 : Nat, index bs hw t1 = index bs hw t2 → t1 = t2 := by
  intro t1 t2 h
  rcases Nat.lt_trichotomy t1 t2 with hlt | heq | hgt
  · exact absurd h (Nat.ne_of_lt (index_strictMono bs hw t1 t2 hlt))
  · exact heq
  · exact absurd h.symm (Nat.ne_of_lt (index_strictMono bs hw t2 t1 hgt))

lemma trs_pos (bs hw : Nat) (hbs : 0 < bs) (hhw : 0 < hw) :
    0 < thread_reduction_size_ bs hw := by
  unfold thread_reduction_size_
  exact (Nat.one_le_div_iff hhw).mpr (by omega)

lemma ws_pos (bs hw : Nat) (hbs : 0 < bs) (hhw : 0 < hw) : 0 < warp_size_ bs hw := by
  unfold warp_size_ get_min_warp_size
  omega

lemma bs_le_cover (bs hw : Nat) (hbs : 0 < bs) (hhw : 0 < hw) :
    bs ≤ warp_size_ bs hw * thread_reduction_size_ bs hw := by
  unfold warp_size_ get_min_warp_size thread_reduction_size_
  rcases Nat.le_total bs hw with h | h
  · have hq : 0 < (bs + hw - 1) / hw := (Nat.one_le_div_iff hhw).mpr (by omega)
    have hmin : min bs hw = bs := Nat.min_eq_left h
    rw [hmin]
    calc bs = bs * 1 := by omega
    _ ≤ bs * ((bs + hw - 1) / hw) := Nat.mul_le_mul_left bs hq
  · have hmin : min bs hw = hw := Nat.min_eq_right h
    rw [hmin]
    have h1 := Nat.div_add_mod (bs + hw - 1) hw
    have h2 : (bs + hw - 1) % hw < hw := Nat.mod_lt _ hhw
    set q := (bs + hw - 1) / hw with hq
    set r := (bs + hw - 1) % hw with hr
    set P := hw * q with hP
    omega

lemma cover_of_precondition (bs hw : Nat) (hbs : 0 < bs) (hhw : 0 < hw)
    (h : bs ≤ warp_size_ bs hw ∨ warp_size_ bs hw ∣ bs) :
    warp_size_ bs hw * thread_reduction_size_ bs hw = bs := by
  unfold warp_size_ get_min_warp_size at *
  unfold thread_reduction_size_
  rcases Nat.le_total bs hw with hle | hge
  · have hmin : min bs hw = bs := Nat.min_eq_left hle
    rw [hmin]
    have htrs : (bs + hw - 1) / hw = 1 := Nat.div_eq_of_lt_le (by omega) (by omega)
    rw [htrs]
    omega
  · have hmin : min bs hw = hw := Nat.min_eq_right hge
    rw [hmin] at h ⊢
    rcases h with h | h
    · have hbe : bs = hw := Nat.le_antisymm h hge
      subst hbe
      have htrs : (bs + bs - 1) / bs = 1 := Nat.div_eq_of_lt_le (by omega) (by omega)
      rw [htrs]
      omega
    · obtain ⟨m, rfl⟩ := h
      have htrs : (hw * m + hw - 1) / hw = m := by
        have e : hw * m + hw - 1 = hw * m + (hw - 1) := by omega
        rw [e, Nat.mul_add_div hhw]
        have h0 : (hw - 1) / hw = 0 := Nat.div_eq_of_lt (by omega)
        omega
      rw [htrs]

lemma bs_lt_cover (bs hw : Nat) (hbs : 0 < bs) (hhw : 0 < hw)
    (hgt : hw < bs) (hnd : ¬ hw ∣ bs) :
    bs < warp_size_ bs hw * thread_reduction_size_ bs hw := by
  have hle := bs_le_cover bs hw hbs hhw
  rcases Nat.lt_or_ge bs (warp_size_ bs hw * thread_reduction_size_ bs hw) with h | h
  · exact h
  · exfalso
    apply hnd
    have heq : bs = warp_size_ bs hw * thread_reduction_size_ bs hw := by omega
    have hmin : warp_size_ bs hw = hw := by
      unfold warp_size_ get_min_warp_size
      omega
    rw [hmin] at heq
    exact ⟨_, heq⟩

/-! ### Variant-level specifications -/

lemma inclusive_scan_base_spec2 (op : T → T → T)
    (hassoc : ∀ a b c : T, op (op a b) c = op a (op b c))
    (bs ws trs : Nat) (idxf : Nat → Nat) (inputs store0 : Nat → T)
    (hcov : bs = ws * trs) (htrs : 0 < trs)
    (halign : ∀ l j : Nat, j < trs → idxf (l * trs + j) = idxf (l * trs) + j)
    (hinj : ∀ t1 t2 : Nat, idxf t1 = idxf t2 → t1 = t2)
    (t : Nat) (ht : t < bs) :
    inclusive_scan_base op bs ws trs idxf inputs store0 (idxf t)
      = scan_fold op inputs t := by
  subst hcov
  exact inclusive_scan_base_spec op hassoc ws trs idxf inputs store0 htrs halign hinj t ht

/-- Under a valid configuration, slot `index t` of the block storage holds
the left-to-right fold of inputs `0..t`. -/
lemma block_store_spec (op : T → T → T)
    (hassoc : ∀ a b c : T, op (op a b) c = op a (op b c))
    (bs hw : Nat) (hv : valid_config bs hw) (vin store0 : Nat → T)
    (t : Nat) (ht : t < bs) :
    block_store op bs hw vin store0 (index bs hw t) = scan_fold op vin t := by
  obtain ⟨hbs, hhw, hcov, hconf⟩ := hv
  exact inclusive_scan_base_spec2 op hassoc bs _ _ (index bs hw) vin store0 hcov
    (trs_pos bs hw hbs hhw) (fun l j hj => index_align bs hw hconf l j hj)
    (index_inj bs hw) t ht

lemma inclusive_scan_spec (op : T → T → T)
    (hassoc : ∀ a b c : T, op (op a b) c = op a (op b c))
    (bs hw : Nat) (hv : valid_config bs hw) (inputs store0 : Nat → T)
    (t : Nat) (ht : t < bs) :
    inclusive_scan op bs hw inputs store0 t = scan_fold op inputs t :=
  block_store_spec op hassoc bs hw hv inputs store0 t ht

lemma scan_reduction_spec (op : T → T → T)
    (hassoc : ∀ a b c : T, op (op a b) c = op a (op b c))
    (bs hw : Nat) (hv : valid_config bs hw) (vin store0 : Nat → T) :
    scan_reduction op bs hw vin store0 = scan_fold op vin (bs - 1) :=
  block_store_spec op hassoc bs hw hv vin store0 (bs - 1) (by
    obtain ⟨hbs, _, _, _⟩ := hv
    omega)

lemma exclusive_scan_spec (op : T → T → T)
    (hassoc : ∀ a b c : T, op (op a b) c = op a (op b c))
    (bs hw : Nat) (hv : valid_config bs hw) (init : T) (inputs store0 : Nat → T)
    (t : Nat) (ht : t < bs) :
    exclusive_scan op bs hw init inputs store0 t = scan_fold_from op init inputs t := by
  unfold exclusive_scan
  cases t with
  | zero => rfl
  | succ k =>
    rw [if_neg (Nat.succ_ne_zero k), Nat.succ_sub_one]
    rw [block_store_spec op hassoc bs hw hv inputs store0 k (by omega)]
    rw [scan_fold_from_eq op hassoc init inputs k]

lemma flat_items_at (ipt : Nat) (hipt : 0 < ipt) (inputs : Nat → Nat → T)
    (m r : Nat) (hr : r < ipt) :
    flat_items ipt inputs (m * ipt + r) = inputs m r := by
  unfold flat_items
  have e : m * ipt + r = ipt * m + r := by rw [Nat.mul_comm]
  rw [e, Nat.mul_add_div hipt, Nat.mul_add_mod]
  rw [Nat.div_eq_of_lt hr, Nat.mod_eq_of_lt hr, Nat.add_zero]

lemma thread_items_fold_eq (op : T → T → T) (ipt : Nat) (hipt : 0 < ipt)
    (inputs : Nat → Nat → T) (m : Nat) :
    thread_items_fold op ipt (inputs m) = block_fold op (flat_items ipt inputs) ipt m := by
  unfold thread_items_fold block_fold seg_fold
  have e0 : flat_items ipt inputs (m * ipt) = inputs m 0 := by
    have h := flat_items_at ipt hipt inputs m 0 hipt
    rwa [Nat.add_zero] at h
  rw [e0]
  apply foldl_congr_mem
  intro b j hj
  have hj2 : 1 + j < ipt := by
    have := List.mem_range.mp hj
    omega
  have e1 : flat_items ipt inputs (m * ipt + 1 + j) = inputs m (j + 1) := by
    rw [show m * ipt + 1 + j = m * ipt + (1 + j) from by omega,
      flat_items_at ipt hipt inputs m (1 + j) hj2, Nat.add_comm 1 j]
  rw [e1]

lemma tin_scan_fold (op : T → T → T)
    (hassoc : ∀ a b c : T, op (op a b) c = op a (op b c))
    (ipt : Nat) (hipt : 0 < ipt) (inputs : Nat → Nat → T) (k : Nat) :
    scan_fold op (fun m => thread_items_fold op ipt (inputs m)) k
      = scan_fold op (flat_items ipt inputs) (k * ipt + (ipt - 1)) := by
  rw [scan_fold_congr op (fun m _ => thread_items_fold_eq op ipt hipt inputs m),
    blocks_merge op hassoc (flat_items ipt inputs) ipt hipt k]

lemma inclusive_scan_array_spec (op : T → T → T)
    (hassoc : ∀ a b c : T, op (op a b) c = op a (op b c))
    (bs hw ipt : Nat) (hv : valid_config bs hw) (hipt : 0 < ipt)
    (inputs : Nat → Nat → T) (store0 : Nat → T) (t : Nat) (ht : t < bs) :
    ∀ i, i < ipt →
      inclusive_scan_array op bs hw ipt inputs store0 t i
        = scan_fold op (flat_items ipt inputs) (t * ipt + i)
  | 0, _ => by
    show (if t = 0 then inputs t 0
        else op (block_store op bs hw (fun m => thread_items_fold op ipt (inputs m))
                  store0 (index bs hw (t - 1)))
               (inputs t 0)) = _
    cases t with
    | zero =>
      rw [if_pos rfl]
      have e := flat_items_at ipt hipt inputs 0 0 hipt
      rw [Nat.zero_mul, Nat.add_zero] at e
      rw [Nat.zero_mul, Nat.add_zero,
        show scan_fold op (flat_items ipt inputs) 0 = flat_items ipt inputs 0 from rfl, e]
    | succ k =>
      rw [if_neg (Nat.succ_ne_zero k), Nat.succ_sub_one]
      rw [block_store_spec op hassoc bs hw hv _ store0 k (by omega)]
      rw [tin_scan_fold op hassoc ipt hipt inputs k]
      have hmul : (k + 1) * ipt = k * ipt + (ipt - 1) + 1 := by
        rw [Nat.succ_mul]
        omega
      have e1 : inputs (k + 1) 0 = flat_items ipt inputs (k * ipt + (ipt - 1) + 1) := by
        have e := flat_items_at ipt hipt inputs (k + 1) 0 hipt
        rw [Nat.add_zero, hmul] at e
        exact e.symm
      rw [e1, show (k + 1) * ipt + 0 = k * ipt + (ipt - 1) + 1 from by omega,
        scan_fold_succ]
  | i + 1, hi => by
    have hrec : inclusive_scan_array op bs hw ipt inputs store0 t (i + 1)
        = op (inclusive_scan_array op bs hw ipt inputs store0 t i) (inputs t (i + 1)) := rfl
    rw [hrec,
      inclusive_scan_array_spec op hassoc bs hw ipt hv hipt inputs store0 t ht i (by omega)]
    have e1 : inputs t (i + 1) = flat_items ipt inputs (t * ipt + i + 1) := by
      have e := flat_items_at ipt hipt inputs t (i + 1) hi
      rw [show t * ipt + (i + 1) = t * ipt + i + 1 from by omega] at e
      exact e.symm
    rw [e1, show t * ipt + (i + 1) = (t * ipt + i) + 1 from by omega, scan_fold_succ]

lemma exclusive_scan_array_spec (op : T → T → T)
    (hassoc : ∀ a b c : T, op (op a b) c = op a (op b c))
    (bs hw ipt : Nat) (hv : valid_config bs hw) (hipt : 0 < ipt) (init : T)
    (inputs : Nat → Nat → T) (store0 : Nat → T) (t : Nat) (ht : t < bs) :
    ∀ i, i < ipt →
      exclusive_scan_array op bs hw ipt init inputs store0 t i
        = scan_fold_from op init (flat_items ipt inputs) (t * ipt + i)
  | 0, _ => by
    show (if t = 0 then init
        else op init (block_store op bs hw (fun m => thread_items_fold op ipt (inputs m))
                        store0 (index bs hw (t - 1)))) = _
    cases t with
    | zero =>
      rw [if_pos rfl, Nat.zero_mul]
      rfl
    | succ k =>
      rw [if_neg (Nat.succ_ne_zero k), Nat.succ_sub_one]
      rw [block_store_spec op hassoc bs hw hv _ store0 k (by omega)]
      rw [tin_scan_fold op hassoc ipt hipt inputs k]
      have hmul : (k + 1) * ipt = k * ipt + (ipt - 1) + 1 := by
        rw [Nat.succ_mul]
        omega
      rw [show (k + 1) * ipt + 0 = k * ipt + (ipt - 1) + 1 from by omega,
        scan_fold_from_eq op hassoc init _ (k * ipt + (ipt - 1))]
  | i + 1, hi => by
    have hrec : exclusive_scan_array op bs hw ipt init inputs store0 t (i + 1)
        = op (exclusive_scan_array op bs hw ipt init inputs store0 t i) (inputs t i) := rfl
    rw [hrec,
      exclusive_scan_array_spec op hassoc bs hw ipt hv hipt init inputs store0 t ht i (by omega)]
    have e1 : inputs t i = flat_items ipt inputs (t * ipt + i) :=
      (flat_items_at ipt hipt inputs t i (by omega)).symm
    rw [e1, show t * ipt + (i + 1) = (t * ipt + i) + 1 from by omega, scan_fold_from_succ]

/-! ### Claim theorems -/

/-- C1: for every associative `scan_op` and thread-owned values in flat
order (scalar inputs `inputs1`, array inputs `inputs` with `ipt` items per
thread), the inclusive_scan variants write at logical position `k` the
left-to-right fold of the first `k+1` inputs; the operator is arbitrary, in
particular it need not be commutative. -/
theorem C1_inclusive_scan_fold (op : T → T → T)
    (hassoc : ∀ a b c : T, op (op a b) c = op a (op b c))
    (bs hw ipt : Nat) (hv : valid_config bs hw) (hipt : 0 < ipt)
    (inputs1 : Nat → T) (inputs : Nat → Nat → T) (store0 : Nat → T) :
    (∀ t, t < bs → inclusive_scan op bs hw inputs1 store0 t = scan_fold op inputs1 t) ∧
    (∀ t i, t < bs → i < ipt →
      inclusive_scan_array op bs hw ipt inputs store0 t i
        = scan_fold op (flat_items ipt inputs) (t * ipt + i)) :=
  ⟨fun t ht => inclusive_scan_spec op hassoc bs hw hv inputs1 store0 t ht,
   fun t i ht hi =>
     inclusive_scan_array_spec op hassoc bs hw ipt hv hipt inputs store0 t ht i hi⟩

/-- Witness for C1. -/
theorem C1_witness :
    inclusive_scan Nat.add 4 2 (fun t => t + 1) (fun _ => 0) 2
      = scan_fold Nat.add (fun t => t + 1) 2 ∧
    inclusive_scan_array Nat.add 4 2 2 (fun t i => t + i) (fun _ => 0) 1 1
      = scan_fold Nat.add (flat_items 2 (fun t i => t + i)) 3 :=
  ⟨(C1_inclusive_scan_fold Nat.add (fun a b c => Nat.add_assoc a b c) 4 2 2
      (by unfold valid_config; decide) (by decide) (fun t => t + 1) (fun t i => t + i)
      (fun _ => 0)).1 2 (by decide),
   (C1_inclusive_scan_fold Nat.add (fun a b c => Nat.add_assoc a b c) 4 2 2
      (by unfold valid_config; decide) (by decide) (fun t => t + 1) (fun t i => t + i)
      (fun _ => 0)).2 1 1 (by decide) (by decide)⟩

/-- C2: every exclusive_scan variant taking `init` writes `init` at logical
position 0 and `fold(scan_op, init, v_0..v_{k-1})` at every position
`k > 0` (both cases are `scan_fold_from op init · k`). -/
theorem C2_exclusive_scan_init_fold (op : T → T → T)
    (hassoc : ∀ a b c : T, op (op a b) c = op a (op b c))
    (bs hw ipt : Nat) (hv : valid_config bs hw) (hipt : 0 < ipt) (init : T)
    (inputs1 : Nat → T) (inputs : Nat → Nat → T) (store0 : Nat → T) :
    (∀ k, k < bs →
      exclusive_scan op bs hw init inputs1 store0 k = scan_fold_from op init inputs1 k) ∧
    (∀ t i, t < bs → i < ipt →
      exclusive_scan_array op bs hw ipt init inputs store0 t i
        = scan_fold_from op init (flat_items ipt inputs) (t * ipt + i)) :=
  ⟨fun k hk => exclusive_scan_spec op hassoc bs hw hv init inputs1 store0 k hk,
   fun t i ht hi =>
     exclusive_scan_array_spec op hassoc bs hw ipt hv hipt init inputs store0 t ht i hi⟩

/-- Witness for C2. -/
theorem C2_witness :
    exclusive_scan Nat.add 4 2 100 (fun t => t + 1) (fun _ => 0) 3
      = scan_fold_from Nat.add 100 (fun t => t + 1) 3 ∧
    exclusive_scan_array Nat.add 4 2 2 100 (fun t i => t + i) (fun _ => 0) 1 0
      = scan_fold_from Nat.add 100 (flat_items 2 (fun t i => t + i)) 2 :=
  ⟨(C2_exclusive_scan_init_fold Nat.add (fun a b c => Nat.add_assoc a b c) 4 2 2
      (by unfold valid_config; decide) (by decide) 100 (fun t => t + 1) (fun t i => t + i) (fun _ => 0)).1 3
      (by decide),
   (C2_exclusive_scan_init_fold Nat.add (fun a b c => Nat.add_assoc a b c) 4 2 2
      (by unfold valid_config; decide) (by decide) 100 (fun t => t + 1) (fun t i => t + i) (fun _ => 0)).2 1 0
      (by decide) (by decide)⟩

/-- C3: every with-reduction variant reports `fold(scan_op, v_0..v_{n-1})`,
which equals the inclusive result at the last logical position; for the
exclusive variants the reported reduction does not mention `init` at all. -/
theorem C3_reduction_total (op : T → T → T)
    (hassoc : ∀ a b c : T, op (op a b) c = op a (op b c))
    (bs hw ipt : Nat) (hv : valid_config bs hw) (hipt : 0 < ipt) (init : T)
    (inputs1 : Nat → T) (inputs : Nat → Nat → T) (store0 : Nat → T) :
    ((inclusive_scan_red op bs hw inputs1 store0).2 = scan_fold op inputs1 (bs - 1)) ∧
    ((inclusive_scan_red op bs hw inputs1 store0).2
        = inclusive_scan op bs hw inputs1 store0 (bs - 1)) ∧
    ((exclusive_scan_red op bs hw init inputs1 store0).2 = scan_fold op inputs1 (bs - 1)) ∧
    ((inclusive_scan_array_red op bs hw ipt inputs store0).2
        = scan_fold op (flat_items ipt inputs) (bs * ipt - 1)) ∧
    ((inclusive_scan_array_red op bs hw ipt inputs store0).2
        = inclusive_scan_array op bs hw ipt inputs store0 (bs - 1) (ipt - 1)) ∧
    ((exclusive_scan_array_red op bs hw ipt init inputs store0).2
        = scan_fold op (flat_items ipt inputs) (bs * ipt - 1)) := by
  have hbs : 0 < bs := hv.1
  have harr : scan_reduction op bs hw (fun m => thread_items_fold op ipt (inputs m)) store0
      = scan_fold op (flat_items ipt inputs) (bs * ipt - 1) := by
    rw [scan_reduction_spec op hassoc bs hw hv _ store0,
      tin_scan_fold op hassoc ipt hipt inputs (bs - 1)]
    congr 1
    cases bs with
    | zero => omega
    | succ b =>
      rw [Nat.succ_sub_one, Nat.succ_mul]
      omega
  refine ⟨scan_reduction_spec op hassoc bs hw hv inputs1 store0, rfl,
    scan_reduction_spec op hassoc bs hw hv inputs1 store0, harr, ?_, harr⟩
  show scan_reduction op bs hw (fun m => thread_items_fold op ipt (inputs m)) store0 = _
  rw [harr,
    inclusive_scan_array_spec op hassoc bs hw ipt hv hipt inputs store0 (bs - 1)
      (by omega) (ipt - 1) (by omega)]
  congr 1
  cases bs with
  | zero => omega
  | succ b =>
    rw [Nat.succ_sub_one, Nat.succ_mul]
    omega

/-- Witness for C3. -/
theorem C3_witness :
    ((inclusive_scan_red Nat.add 4 2 (fun t => t + 1) (fun _ => 0)).2
        = scan_fold Nat.add (fun t => t + 1) 3) ∧
    ((exclusive_scan_red Nat.add 4 2 100 (fun t => t + 1) (fun _ => 0)).2
        = scan_fold Nat.add (fun t => t + 1) 3) :=
  ⟨(C3_reduction_total Nat.add (fun a b c => Nat.add_assoc a b c) 4 2 2
      (by unfold valid_config; decide) (by decide) 100 (fun t => t + 1) (fun t i => t + i)
      (fun _ => 0)).1,
   (C3_reduction_total Nat.add (fun a b c => Nat.add_assoc a b c) 4 2 2
      (by unfold valid_config; decide) (by decide) 100 (fun t => t + 1) (fun t i => t + i)
      (fun _ => 0)).2.2.1⟩

lemma thread_scan_from_pull (op : T → T → T)
    (hassoc : ∀ a b c : T, op (op a b) c = op a (op b c))
    (P x0 : T) (items : Nat → T) :
    ∀ i, thread_scan_from op (op P x0) items i = op P (thread_scan_from op x0 items i)
  | 0 => rfl
  | i + 1 => by
    show op (thread_scan_from op (op P x0) items i) (items (i + 1)) = _
    rw [thread_scan_from_pull op hassoc P x0 items i, hassoc]
    rfl

/-- C4 counterexample: the claim fails for the exclusive callback-taking
variant at logical position 0.  With `scan_op a b = a + b + 1` (associative,
no identity element), `BlockSize = 2`, `hw = 2`, inputs `1, 2` and a callback
returning `P = 5`, thread 0's output is `P` itself, and there is no `init`
for which it equals `scan_op(P, r)` with `r` the output of the corresponding
no-callback exclusive variant. -/
theorem C4_counterexample :
    ¬ ∃ init : Nat, ∀ t, t < 2 →
      exclusive_scan_cb (fun a b => a + b + 1) 2 2 (fun _ => 5) (fun t => t + 1) (fun _ => 0) t
        = (fun a b => a + b + 1) 5
            (exclusive_scan (fun a b => a + b + 1) 2 2 init (fun t => t + 1) (fun _ => 0) t) := by
  rintro ⟨init, h⟩
  have h0 := h 0 (by omega)
  have e1 : exclusive_scan_cb (fun a b => a + b + 1) 2 2 (fun _ => 5) (fun t => t + 1)
      (fun _ => 0) 0 = 5 := by decide
  have e2 : exclusive_scan (fun a b => a + b + 1) 2 2 init (fun t => t + 1)
      (fun _ => 0) 0 = init := rfl
  rw [e1, e2] at h0
  have h1 : (5 : Nat) = 5 + init + 1 := h0
  omega

/-- C4 amended: for the inclusive callback-taking variants every output is
`scan_op(P, r)` with `r` the corresponding no-callback output and `P` the
callback's value on the block reduction; the exclusive callback-taking
variants (which take no `init`) instead coincide with the exclusive
variants run with `init := P` at every position. -/
theorem C4_callback_amended (op : T → T → T)
    (hassoc : ∀ a b c : T, op (op a b) c = op a (op b c))
    (bs hw ipt : Nat) (cb : T → T) (inputs1 : Nat → T) (inputs : Nat → Nat → T)
    (store0 : Nat → T) :
    (∀ t, inclusive_scan_cb op bs hw cb inputs1 store0 t
        = op (cb ((inclusive_scan_red op bs hw inputs1 store0).2))
            (inclusive_scan op bs hw inputs1 store0 t)) ∧
    (∀ t, exclusive_scan_cb op bs hw cb inputs1 store0 t
        = exclusive_scan op bs hw (cb ((inclusive_scan_red op bs hw inputs1 store0).2))
            inputs1 store0 t) ∧
    (∀ t i, inclusive_scan_array_cb op bs hw ipt cb inputs store0 t i
        = op (cb ((inclusive_scan_array_red op bs hw ipt inputs store0).2))
            (inclusive_scan_array op bs hw ipt inputs store0 t i)) ∧
    (∀ t i, exclusive_scan_array_cb op bs hw ipt cb inputs store0 t i
        = exclusive_scan_array op bs hw ipt
            (cb ((inclusive_scan_array_red op bs hw ipt inputs store0).2))
            inputs store0 t i) :=
  ⟨fun _ => rfl,
   fun _ => rfl,
   fun t i => thread_scan_from_pull op hassoc _ _ (inputs t) i,
   fun _ _ => rfl⟩

/-- Witness for C4 (amended). -/
theorem C4_witness :
    inclusive_scan_cb Nat.add 2 2 (fun x => x + 7) (fun t => t + 1) (fun _ => 0) 1
      = Nat.add
          ((fun x => x + 7) ((inclusive_scan_red Nat.add 2 2 (fun t => t + 1) (fun _ => 0)).2))
          (inclusive_scan Nat.add 2 2 (fun t => t + 1) (fun _ => 0) 1) ∧
    inclusive_scan_array_cb Nat.add 2 2 2 (fun x => x + 7) (fun t i => t + i) (fun _ => 0) 1 1
      = Nat.add
          ((fun x => x + 7)
            ((inclusive_scan_array_red Nat.add 2 2 2 (fun t i => t + i) (fun _ => 0)).2))
          (inclusive_scan_array Nat.add 2 2 2 (fun t i => t + i) (fun _ => 0) 1 1) :=
  ⟨(C4_callback_amended Nat.add (fun a b c => Nat.add_assoc a b c) 2 2 2 (fun x => x + 7)
      (fun t => t + 1) (fun t i => t + i) (fun _ => 0)).1 1,
   (C4_callback_amended Nat.add (fun a b c => Nat.add_assoc a b c) 2 2 2 (fun x => x + 7)
      (fun t => t + 1) (fun t i => t + i) (fun _ => 0)).2.2.1 1 1⟩

lemma filter_warp0 (hw : Nat) (hhw : 0 < hw) :
    ∀ bs, (List.range bs).filter (fun t => t / hw == 0) = List.range (min bs hw)
  | 0 => by simp
  | bs + 1 => by
    rw [List.range_succ, List.filter_append, filter_warp0 hw hhw bs]
    by_cases h : bs < hw
    · have h1 : (bs / hw == 0) = true := by
        simp [Nat.div_eq_of_lt h]
      have h2 : min bs hw = bs := by omega
      have h3 : min (bs + 1) hw = bs + 1 := by omega
      rw [h2, h3, List.range_succ]
      simp [List.filter, h1]
    · have h1 : (bs / hw == 0) = false := by
        simp only [beq_eq_false_iff_ne, ne_eq]
        rw [Nat.div_eq_zero_iff hhw]
        omega
      have h2 : min (bs + 1) hw = min bs hw := by omega
      rw [h2]
      simp [List.filter, h1]

/-- C5 counterexample: with `BlockSize = 4` and hardware warp size 64, the
callback is invoked by threads 0, 1, 2 and 3 (all of hardware warp 0), not
by thread 0 alone. -/
theorem C5_counterexample :
    ((inclusive_scan_cb_calls Nat.add 4 64 (fun t => t + 1) (fun _ => 0)).map Prod.fst)
      ≠ [0] := by
  decide

/-- C5 amended: the callback is invoked once per thread of hardware warp 0 —
the threads with flat id below `min BlockSize hw` — each invocation taking
the group's total reduction (thread 0 among them); it is not invoked exactly
once unless that warp holds a single thread. -/
theorem C5_callback_calls_amended (op : T → T → T)
    (hassoc : ∀ a b c : T, op (op a b) c = op a (op b c))
    (bs hw : Nat) (hv : valid_config bs hw) (inputs store0 : Nat → T) :
    ((inclusive_scan_cb_calls op bs hw inputs store0).map Prod.fst
        = List.range (min bs hw)) ∧
    (∀ pr ∈ inclusive_scan_cb_calls op bs hw inputs store0,
        pr.2 = scan_fold op inputs (bs - 1)) ∧
    (0 : Nat) ∈ (inclusive_scan_cb_calls op bs hw inputs store0).map Prod.fst := by
  obtain ⟨hbs, hhw, hcov, hconf⟩ := hv
  have hmapfst : (inclusive_scan_cb_calls op bs hw inputs store0).map Prod.fst
      = List.range (min bs hw) := by
    unfold inclusive_scan_cb_calls
    rw [List.map_map, filter_warp0 hw hhw bs]
    have hcomp : (Prod.fst ∘ fun t : Nat =>
        (t, block_store op bs hw inputs store0 (index bs hw (bs - 1)))) = fun t : Nat => t :=
      rfl
    rw [hcomp]
    simp
  refine ⟨hmapfst, ?_, ?_⟩
  · intro pr hpr
    unfold inclusive_scan_cb_calls at hpr
    rw [List.mem_map] at hpr
    obtain ⟨t, _, rfl⟩ := hpr
    exact block_store_spec op hassoc bs hw ⟨hbs, hhw, hcov, hconf⟩ inputs store0 (bs - 1)
      (by omega)
  · rw [hmapfst, List.mem_range]
    omega

/-- Witness for C5 (amended). -/
theorem C5_witness :
    ((inclusive_scan_cb_calls Nat.add 4 2 (fun t => t + 1) (fun _ => 0)).map Prod.fst
        = List.range (min 4 2)) ∧
    (∀ pr ∈ inclusive_scan_cb_calls Nat.add 4 2 (fun t => t + 1) (fun _ => 0),
        pr.2 = scan_fold Nat.add (fun t => t + 1) 3) ∧
    (0 : Nat) ∈ (inclusive_scan_cb_calls Nat.add 4 2 (fun t => t + 1) (fun _ => 0)).map
        Prod.fst :=
  C5_callback_calls_amended Nat.add (fun a b c => Nat.add_assoc a b c) 4 2
    (by unfold valid_config; decide) (fun t => t + 1) (fun _ => 0)

/-- C6: when `BlockSize` is at most the sub-group width or an exact multiple
of it, every scratch slot read by the leader re-reduction loop was staged by
some thread with flat id below `BlockSize`; otherwise some leader reads a
slot no thread wrote. -/
theorem C6_leader_range_coverage (bs hw : Nat) (hbs : 0 < bs) (hhw : 0 < hw)
    (hconf : has_bank_conflicts_ bs hw = true → thread_reduction_size_ bs hw ∣ banks_no_) :
    ((bs ≤ warp_size_ bs hw ∨ warp_size_ bs hw ∣ bs) →
      ∀ i ∈ leader_read_indices bs hw, i ∈ staged_indices bs hw) ∧
    (¬ (bs ≤ warp_size_ bs hw ∨ warp_size_ bs hw ∣ bs) →
      ∃ i ∈ leader_read_indices bs hw, i ∉ staged_indices bs hw) := by
  constructor
  · intro hpre i hi
    have hcov := cover_of_precondition bs hw hbs hhw hpre
    simp only [leader_read_indices, List.mem_flatMap, List.mem_map, List.mem_range] at hi
    obtain ⟨l, hl, j, hj, rfl⟩ := hi
    simp only [staged_indices, List.mem_map, List.mem_range]
    refine ⟨l * thread_reduction_size_ bs hw + j, ?_, ?_⟩
    · have := block_pos_lt (warp_size_ bs hw) (thread_reduction_size_ bs hw) l j hl hj
      omega
    · exact index_align bs hw hconf l j hj
  · intro hpre
    push_neg at hpre
    obtain ⟨h1, h2⟩ := hpre
    have hwlt : hw < bs := by
      unfold warp_size_ get_min_warp_size at h1
      omega
    have hws : warp_size_ bs hw = hw := by
      unfold warp_size_ get_min_warp_size
      omega
    have hnd : ¬ hw ∣ bs := by
      rw [hws] at h2
      exact h2
    have hlt := bs_lt_cover bs hw hbs hhw hwlt hnd
    have hwsp := ws_pos bs hw hbs hhw
    have htrsp := trs_pos bs hw hbs hhw
    refine ⟨index bs hw ((warp_size_ bs hw - 1) * thread_reduction_size_ bs hw)
      + (thread_reduction_size_ bs hw - 1), ?_, ?_⟩
    · simp only [leader_read_indices, List.mem_flatMap, List.mem_map, List.mem_range]
      exact ⟨warp_size_ bs hw - 1, by omega,
        ⟨thread_reduction_size_ bs hw - 1, by omega, rfl⟩⟩
    · intro hmem
      simp only [staged_indices, List.mem_map, List.mem_range] at hmem
      obtain ⟨t, ht, heq⟩ := hmem
      have halign := index_align bs hw hconf (warp_size_ bs hw - 1)
        (thread_reduction_size_ bs hw - 1) (by omega)
      have e : (warp_size_ bs hw - 1) * thread_reduction_size_ bs hw
          + (thread_reduction_size_ bs hw - 1)
          = warp_size_ bs hw * thread_reduction_size_ bs hw - 1 := by
        cases hws2 : warp_size_ bs hw with
        | zero => omega
        | succ w =>
          rw [Nat.succ_sub_one, Nat.succ_mul]
          omega
      rw [← halign, e] at heq
      have ht2 := index_inj bs hw t
        (warp_size_ bs hw * thread_reduction_size_ bs hw - 1) heq
      omega

/-- Witness for C6 at `BlockSize = 3`, `hw = 2` (not covered: the second
leader reads slot 3, which no thread staged). -/
theorem C6_witness :
    ((3 ≤ warp_size_ 3 2 ∨ warp_size_ 3 2 ∣ 3) →
      ∀ i ∈ leader_read_indices 3 2, i ∈ staged_indices 3 2) ∧
    (¬ (3 ≤ warp_size_ 3 2 ∨ warp_size_ 3 2 ∣ 3) →
      ∃ i ∈ leader_read_indices 3 2, i ∉ staged_indices 3 2) :=
  C6_leader_range_coverage 3 2 (by decide) (by decide) (by decide)

/-- C7: for fixed inputs and an associative operator, the computed outputs
and the reduction are identical for every admissible sub-group width (a
power of two arising as `min BlockSize hw` for a hardware width `hw`),
independently of the scratch contents. -/
theorem C7_width_independence (op : T → T → T)
    (hassoc : ∀ a b c : T, op (op a b) c = op a (op b c))
    (bs hw1 hw2 : Nat) (hv1 : valid_config bs hw1) (hv2 : valid_config bs hw2)
    (_hp1 : is_power_of_two (warp_size_ bs hw1) = true)
    (_hp2 : is_power_of_two (warp_size_ bs hw2) = true)
    (inputs store1 store2 : Nat → T) :
    (∀ t, t < bs →
      inclusive_scan op bs hw1 inputs store1 t = inclusive_scan op bs hw2 inputs store2 t) ∧
    scan_reduction op bs hw1 inputs store1 = scan_reduction op bs hw2 inputs store2 := by
  constructor
  · intro t ht
    rw [inclusive_scan_spec op hassoc bs hw1 hv1 inputs store1 t ht,
      inclusive_scan_spec op hassoc bs hw2 hv2 inputs store2 t ht]
  · rw [scan_reduction_spec op hassoc bs hw1 hv1 inputs store1,
      scan_reduction_spec op hassoc bs hw2 hv2 inputs store2]

/-- Witness for C7: `BlockSize = 4` with hardware widths 2 and 64 (sub-group
widths 2 and 4). -/
theorem C7_witness :
    (∀ t, t < 4 →
      inclusive_scan Nat.add 4 2 (fun t => t + 1) (fun _ => 0) t
        = inclusive_scan Nat.add 4 64 (fun t => t + 1) (fun _ => 7) t) ∧
    scan_reduction Nat.add 4 2 (fun t => t + 1) (fun _ => 0)
      = scan_reduction Nat.add 4 64 (fun t => t + 1) (fun _ => 7) :=
  C7_width_independence Nat.add (fun a b c => Nat.add_assoc a b c) 4 2 64
    (by unfold valid_config; decide) (by unfold valid_config; decide)
    (by decide) (by decide) (fun t => t + 1) (fun _ => 0) (fun _ => 7)

lemma padded_map_inj : ∀ t1 t2 : Nat, t1 + t1 / banks_no_ = t2 + t2 / banks_no_ → t1 = t2 := by
  intro t1 t2 h
  unfold banks_no_ at h
  omega

/-- C8: running the algorithm with the bank-conflict remapping
`n ↦ n + n / banks_no_` produces exactly the same outputs and reduction as
running it with the identity mapping. -/
theorem C8_padding_equivalence (op : T → T → T)
    (hassoc : ∀ a b c : T, op (op a b) c = op a (op b c))
    (bs hw : Nat) (hbs : 0 < bs) (hhw : 0 < hw)
    (hcov : bs = warp_size_ bs hw * thread_reduction_size_ bs hw)
    (hdvd : thread_reduction_size_ bs hw ∣ banks_no_)
    (inputs store0 : Nat → T) :
    (∀ t, t < bs →
      inclusive_scan_with_map op bs hw (fun n => n + n / banks_no_) inputs store0 t
        = inclusive_scan_with_map op bs hw (fun n => n) inputs store0 t) ∧
    scan_reduction_with_map op bs hw (fun n => n + n / banks_no_) inputs store0
      = scan_reduction_with_map op bs hw (fun n => n) inputs store0 := by
  have htrsp := trs_pos bs hw hbs hhw
  have hpad : ∀ t, t < bs →
      inclusive_scan_base op bs (warp_size_ bs hw) (thread_reduction_size_ bs hw)
        (fun n => n + n / banks_no_) inputs store0 (t + t / banks_no_)
      = scan_fold op inputs t := fun t ht =>
    inclusive_scan_base_spec2 op hassoc bs _ _ (fun n => n + n / banks_no_) inputs store0
      hcov htrsp
      (fun l j hj => padded_align (thread_reduction_size_ bs hw) banks_no_ (by decide) hdvd l j hj)
      padded_map_inj t ht
  have hid : ∀ t, t < bs →
      inclusive_scan_base op bs (warp_size_ bs hw) (thread_reduction_size_ bs hw)
        (fun n => n) inputs store0 t
      = scan_fold op inputs t := fun t ht =>
    inclusive_scan_base_spec2 op hassoc bs _ _ (fun n => n) inputs store0
      hcov htrsp (fun l j _ => rfl) (fun t1 t2 h => h) t ht
  refine ⟨fun t ht => ?_, ?_⟩
  · show inclusive_scan_base op bs _ _ _ inputs store0 (t + t / banks_no_)
      = inclusive_scan_base op bs _ _ _ inputs store0 t
    rw [hpad t ht, hid t ht]
  · show inclusive_scan_base op bs _ _ _ inputs store0 ((bs - 1) + (bs - 1) / banks_no_)
      = inclusive_scan_base op bs _ _ _ inputs store0 (bs - 1)
    rw [hpad (bs - 1) (by omega), hid (bs - 1) (by omega)]

/-- Witness for C8. -/
theorem C8_witness :
    (∀ t, t < 4 →
      inclusive_scan_with_map Nat.add 4 2 (fun n => n + n / banks_no_)
          (fun t => t + 1) (fun _ => 0) t
        = inclusive_scan_with_map Nat.add 4 2 (fun n => n) (fun t => t + 1) (fun _ => 0) t) ∧
    scan_reduction_with_map Nat.add 4 2 (fun n => n + n / banks_no_)
        (fun t => t + 1) (fun _ => 0)
      = scan_reduction_with_map Nat.add 4 2 (fun n => n) (fun t => t + 1) (fun _ => 0) :=
  C8_padding_equivalence Nat.add (fun a b c => Nat.add_assoc a b c) 4 2
    (by decide) (by decide) (by decide) (by decide) (fun t => t + 1) (fun _ => 0)

lemma index_lt_size (bs hw t : Nat)
    (ht : t < warp_size_ bs hw * thread_reduction_size_ bs hw) :
    index bs hw t
      < warp_size_ bs hw * thread_reduction_size_ bs hw + bank_conflicts_padding bs hw := by
  unfold index bank_conflicts_padding banks_no_
  cases h : has_bank_conflicts_ bs hw with
  | false => simpa using ht
  | true =>
    simp only [if_true]
    omega

lemma leader_slot_lt_size (bs hw l j : Nat) (hl : l < warp_size_ bs hw)
    (hj : j < thread_reduction_size_ bs hw) :
    index bs hw (l * thread_reduction_size_ bs hw) + j
      < warp_size_ bs hw * thread_reduction_size_ bs hw + bank_conflicts_padding bs hw := by
  have hlt : l * thread_reduction_size_ bs hw + j
      < warp_size_ bs hw * thread_reduction_size_ bs hw :=
    block_pos_lt _ _ l j hl hj
  unfold index bank_conflicts_padding banks_no_
  cases h : has_bank_conflicts_ bs hw with
  | false => simpa using hlt
  | true =>
    simp only [if_true]
    omega

/-- C9: every scratch access performed by `inclusive_scan_base` and
`get_block_prefix` — the staged writes `index(t)` for `t < BlockSize`, the
leader-range accesses, the reduction read `index(BlockSize-1)` and the
broadcast slot 0 — stays strictly below the declared array length
`warp_size_ * thread_reduction_size_ + bank_conflicts_padding`. -/
theorem C9_storage_bounds (bs hw : Nat) (hbs : 0 < bs) (hhw : 0 < hw) :
    ∀ i ∈ accessed_indices bs hw,
      i < warp_size_ bs hw * thread_reduction_size_ bs hw + bank_conflicts_padding bs hw := by
  intro i hi
  have hble := bs_le_cover bs hw hbs hhw
  simp only [accessed_indices, staged_indices, leader_read_indices, List.mem_append,
    List.mem_map, List.mem_flatMap, List.mem_range, List.mem_cons,
    List.not_mem_nil, or_false] at hi
  rcases hi with (⟨t, ht, rfl⟩ | ⟨l, hl, j, hj, rfl⟩) | h | h
  · exact index_lt_size bs hw t (by omega)
  · exact leader_slot_lt_size bs hw l j hl hj
  · subst h
    exact index_lt_size bs hw (bs - 1) (by omega)
  · subst h
    have h1 := ws_pos bs hw hbs hhw
    have h2 := trs_pos bs hw hbs hhw
    have h3 : 0 < warp_size_ bs hw * thread_reduction_size_ bs hw := Nat.mul_pos h1 h2
    omega

/-- Witness for C9. -/
theorem C9_witness :
    index 4 2 3 ∈ accessed_indices 4 2 ∧
    index 4 2 3 < warp_size_ 4 2 * thread_reduction_size_ 4 2 + bank_conflicts_padding 4 2 :=
  ⟨by decide, C9_storage_bounds 4 2 (by decide) (by decide) (index 4 2 3) (by decide)⟩

/-- C10: for `ItemsPerThread = 1` the array variants agree with the scalar
variants applied to each thread's single item, outputs and reductions
alike. -/
theorem C10_single_item_agreement (op : T → T → T)
    (hassoc : ∀ a b c : T, op (op a b) c = op a (op b c))
    (bs hw : Nat) (hv : valid_config bs hw) (init : T)
    (inputs : Nat → Nat → T) (store0 : Nat → T) :
    (∀ t, t < bs →
      inclusive_scan_array op bs hw 1 inputs store0 t 0
        = inclusive_scan op bs hw (fun m => inputs m 0) store0 t) ∧
    (∀ t, exclusive_scan_array op bs hw 1 init inputs store0 t 0
        = exclusive_scan op bs hw init (fun m => inputs m 0) store0 t) ∧
    ((inclusive_scan_array_red op bs hw 1 inputs store0).2
        = (inclusive_scan_red op bs hw (fun m => inputs m 0) store0).2) ∧
    ((exclusive_scan_array_red op bs hw 1 init inputs store0).2
        = (exclusive_scan_red op bs hw init (fun m => inputs m 0) store0).2) := by
  have htin : (fun m => thread_items_fold op 1 (inputs m)) = (fun m => inputs m 0) :=
    funext (fun m => rfl)
  refine ⟨fun t ht => ?_, fun t => ?_, ?_, ?_⟩
  · rw [inclusive_scan_array_spec op hassoc bs hw 1 hv (by decide) inputs store0 t ht 0
      (by decide),
      inclusive_scan_spec op hassoc bs hw hv (fun m => inputs m 0) store0 t ht]
    rw [show t * 1 + 0 = t from by omega]
    exact scan_fold_congr op (fun m _ => by
      unfold flat_items
      rw [Nat.div_one, Nat.mod_one])
  · show (if t = 0 then init
        else op init (block_store op bs hw (fun m => thread_items_fold op 1 (inputs m))
                        store0 (index bs hw (t - 1)))) = _
    rw [htin]
    rfl
  · show scan_reduction op bs hw (fun m => thread_items_fold op 1 (inputs m)) store0 = _
    rw [htin]
    rfl
  · show scan_reduction op bs hw (fun m => thread_items_fold op 1 (inputs m)) store0 = _
    rw [htin]
    rfl

/-- Witness for C10. -/
theorem C10_witness :
    (∀ t, t < 4 →
      inclusive_scan_array Nat.add 4 2 1 (fun t i => t + i + 1) (fun _ => 0) t 0
        = inclusive_scan Nat.add 4 2 (fun m => m + 0 + 1) (fun _ => 0) t) ∧
    (∀ t, exclusive_scan_array Nat.add 4 2 1 9 (fun t i => t + i + 1) (fun _ => 0) t 0
        = exclusive_scan Nat.add 4 2 9 (fun m => m + 0 + 1) (fun _ => 0) t) ∧
    ((inclusive_scan_array_red Nat.add 4 2 1 (fun t i => t + i + 1) (fun _ => 0)).2
        = (inclusive_scan_red Nat.add 4 2 (fun m => m + 0 + 1) (fun _ => 0)).2) ∧
    ((exclusive_scan_array_red Nat.add 4 2 1 9 (fun t i => t + i + 1) (fun _ => 0)).2
        = (exclusive_scan_red Nat.add 4 2 9 (fun m => m + 0 + 1) (fun _ => 0)).2) :=
  C10_single_item_agreement Nat.add (fun a b c => Nat.add_assoc a b c) 4 2
    (by unfold valid_config; decide) 9 (fun t i => t + i + 1) (fun _ => 0)

end BlockScan
